import Mathlib

/-!
Shallow embedding of the kysely migration module (`src/migration/migration.ts`).

The database is modelled by an explicit state: the migration ledger (rows of
the `kysely_migration` table, a list of names), the lock flag (the single row
of `kysely_migration_lock`), a bootstrap flag (whether the two tracking tables
and the lock row exist) and an abstract schema `σ` that migration `up`/`down`
operations transform, failing with errors of type `ε`.

Migration names are drawn from a linearly ordered type `ν` with decidable
equality; in the source they are JavaScript strings ordered lexicographically
(the default `Array.sort` comparison and SQL `ORDER BY name`), which is one
instance of such an order.
-/

namespace Kysely

def MIGRATION_TABLE : String := "kysely_migration"

def MIGRATION_LOCK_TABLE : String := "kysely_migration_lock"

def MIGRATION_LOCK_ID : String := "migration_lock"

/-- A migration: forward (`up`) and reverse (`down`) operations on the
abstract schema, each either succeeding with a new schema or failing. -/
structure Migration (σ ε : Type) where
  up : σ → Except ε σ
  down : σ → Except ε σ

/-- Database state: ledger of executed migration names (the
`kysely_migration` table), the lock flag of the single
`kysely_migration_lock` row, whether bootstrap has run, and the schema. -/
structure DbState (ν σ : Type) where
  ledger : List ν
  locked : Bool
  bootstrapped : Bool
  schema : σ

/-- Errors surfaced by the migration engine: the two corruption errors of
`ensureMigrationsAreNotCorrupted` / `runNewMigrations`, a primary-key
violation on the ledger insert, and a migration operation's own error
propagated unchanged. -/
inductive MigErr (ν ε : Type) where
  | corruptedMissing (name : ν)
  | comesBefore (name : ν)
  | duplicateName (name : ν)
  | opError (e : ε)

variable {ν σ ε : Type}

/-- Sorting names ascending, as `Object.keys(...).sort()` and
`ORDER BY name` do. -/
def sortNames [LinearOrder ν] (l : List ν) : List ν :=
  l.insertionSort (· ≤ ·)

/-- `allMigrations[name]`: look a name up in the migration record. -/
def lookupName [DecidableEq ν] (name : ν) :
    List (ν × Migration σ ε) → Option (Migration σ ε)
  | [] => none
  | (k, m) :: rest => if name = k then some m else lookupName name rest

/-- Direct translation of `ensureMigrationsAreNotCorrupted`: report the first
executed name missing from the old migrations, else the first old migration
name missing from the executed names. -/
def ensureMigrationsAreNotCorrupted [DecidableEq ν]
    (executedMigrationNames oldMigrationNames : List ν) :
    Option (MigErr ν ε) :=
  match executedMigrationNames.find? (fun it => !(decide (it ∈ oldMigrationNames))) with
  | some it => some (.corruptedMissing it)
  | none =>
    match oldMigrationNames.find? (fun it => !(decide (it ∈ executedMigrationNames))) with
    | some it => some (.comesBefore it)
    | none => none

/-- The apply loop of `runNewMigrations`: for each new migration in order,
invoke its `up` operation, then insert its name into the ledger (failing on a
duplicate primary key).  Returns the names whose `up` was invoked, and either
the final state or the error together with the state at the moment of failure
(which the enclosing transaction will discard). -/
def applyLoop [DecidableEq ν] :
    List (ν × Migration σ ε) → DbState ν σ →
    List ν × Except (MigErr ν ε × DbState ν σ) (DbState ν σ)
  | [], s => ([], .ok s)
  | (name, migration) :: rest, s =>
    match migration.up s.schema with
    | .error e => ([name], .error (.opError e, s))
    | .ok schema2 =>
      let s2 : DbState ν σ := { s with schema := schema2 }
      if name ∈ s2.ledger then
        ([name], .error (.duplicateName name, s2))
      else
        let s3 : DbState ν σ := { s2 with ledger := s2.ledger ++ [name] }
        let (tr, r) := applyLoop rest s3
        (name :: tr, r)

/-- `Object.keys(allMigrations).sort().map(name => ({...allMigrations[name], name}))`:
the migrations of the set paired with their names, in ascending name order. -/
def sortedMigrationsOf [LinearOrder ν] [DecidableEq ν]
    (allMigrations : List (ν × Migration σ ε)) : List (ν × Migration σ ε) :=
  (sortNames (allMigrations.map Prod.fst)).filterMap
    (fun name => (lookupName name allMigrations).map (fun m => (name, m)))

/-- Direct translation of `runNewMigrations`: sort the set's names, read the
executed names sorted, locate the last executed name in the sorted set
(failure when absent, the `findIndex === -1` test), split into old/new, run
the corruption cross-check, then run the apply loop on the new migrations. -/
def runNewMigrations [LinearOrder ν] [DecidableEq ν]
    (allMigrations : List (ν × Migration σ ε)) (s : DbState ν σ) :
    List ν × Except (MigErr ν ε × DbState ν σ) (DbState ν σ) :=
  let sortedMigrations := sortedMigrationsOf allMigrations
  let executedMigrations := sortNames s.ledger
  match executedMigrations.getLast? with
  | some lastExecuted =>
    let lastExecutedIndex := sortedMigrations.findIdx (fun it => decide (it.1 = lastExecuted))
    if lastExecutedIndex = sortedMigrations.length then
      ([], .error (.corruptedMissing lastExecuted, s))
    else
      let oldMigrations := sortedMigrations.take (lastExecutedIndex + 1)
      let newMigrations := sortedMigrations.drop (lastExecutedIndex + 1)
      match ensureMigrationsAreNotCorrupted executedMigrations (oldMigrations.map Prod.fst) with
      | some e => ([], .error (e, s))
      | none => applyLoop newMigrations s
  | none =>
    let oldMigrations : List (ν × Migration σ ε) := []
    let newMigrations := sortedMigrations
    match ensureMigrationsAreNotCorrupted executedMigrations (oldMigrations.map Prod.fst) with
    | some e => ([], .error (e, s))
    | none => applyLoop newMigrations s

/-- Bootstrap (`ensureMigrationTablesExists`) at its success path: the two
tracking tables and the lock row exist afterwards.  The race/failure
behaviour of the individual steps is modelled separately below. -/
def ensureMigrationTablesExists (s : DbState ν σ) : DbState ν σ :=
  { s with bootstrapped := true }

/-- `tryAcquireLock` on the single bootstrapped lock row: the conditional
update affects exactly one row precisely when the row is unlocked. -/
def tryAcquireLock (s : DbState ν σ) : Bool × DbState ν σ :=
  if s.locked = false then (true, { s with locked := true })
  else (false, s)

/-- `acquireLock`: loop on `tryAcquireLock`.  Within one transaction the lock
row seen by the loop never changes, so the loop either succeeds at once or
never returns; `none` models the non-terminating case. -/
def acquireLock (s : DbState ν σ) : Option (DbState ν σ) :=
  match tryAcquireLock s with
  | (true, s2) => some s2
  | (false, _) => none

/-- `releaseLock`: unconditionally clear the lock flag. -/
def releaseLock (s : DbState ν σ) : DbState ν σ :=
  { s with locked := false }

/-- `doMigrateToLatest`: bootstrap outside the transaction, then one
transaction wrapping acquire, the run, and release.  On any error inside the
body the transaction rolls back to the state at its start; on success the
final state commits.  Returns the invoked-`up` trace, the outcome and the
database state afterwards (`none` when lock acquisition never returns). -/
def doMigrateToLatest [LinearOrder ν] [DecidableEq ν]
    (allMigrations : List (ν × Migration σ ε)) (s : DbState ν σ) :
    Option (List ν × Except (MigErr ν ε) Unit × DbState ν σ) :=
  let s0 := ensureMigrationTablesExists s
  match acquireLock s0 with
  | none => none
  | some s1 =>
    match runNewMigrations allMigrations s1 with
    | (tr, .ok s2) => some (tr, .ok (), releaseLock s2)
    | (tr, .error (e, _)) => some (tr, .error e, s0)

/-- Invariant I1: the sorted ledger names are an initial segment of the
sorted migration-set names. -/
def I1 [LinearOrder ν] (migrationNames ledger : List ν) : Prop :=
  sortNames ledger = (sortNames migrationNames).take ledger.length

/-- The names `runNewMigrations` is due to apply: the sorted set names past
the ledger's initial segment. -/
def pendingNamesOf [LinearOrder ν] (migrationNames ledger : List ν) : List ν :=
  (sortNames migrationNames).drop ledger.length

/-- The new migrations (with their operations) past the ledger's initial
segment. -/
def pendingPairsOf [LinearOrder ν] [DecidableEq ν]
    (allMigrations : List (ν × Migration σ ε)) (ledger : List ν) :
    List (ν × Migration σ ε) :=
  (sortedMigrationsOf allMigrations).drop ledger.length

/-- `true` unless the outcome is the duplicate-primary-key failure of the
ledger insert. -/
def dupFree : Except (MigErr ν ε × DbState ν σ) (DbState ν σ) → Bool
  | .error (MigErr.duplicateName _, _) => false
  | _ => true

/-! ### Lock manager on the lock table (`acquireLock` / `tryAcquireLock`) -/

/-- A row of `kysely_migration_lock`. -/
structure LockRow where
  id : String
  is_locked : Nat

/-- The `WHERE is_locked = 0 AND id = 'migration_lock'` condition of the
conditional update in `tryAcquireLock`. -/
def lockRowMatches (r : LockRow) : Bool :=
  decide (r.is_locked = 0) && decide (r.id = MIGRATION_LOCK_ID)

/-- The conditional update of `tryAcquireLock`: `UPDATE kysely_migration_lock
SET is_locked = 1 WHERE is_locked = 0 AND id = 'migration_lock'`, returning
the number of updated rows and the updated table. -/
def tryAcquireLockRows (table : List LockRow) : Nat × List LockRow :=
  ((table.filter lockRowMatches).length,
   table.map (fun r => if lockRowMatches r then { r with is_locked := 1 } else r))

/-- `numUpdatedRows === 1`: one lock-acquisition attempt succeeds exactly
when the conditional update affected exactly one row. -/
def tryAcquireLockSucceeds (table : List LockRow) : Bool :=
  decide ((tryAcquireLockRows table).1 = 1)

/-- The retry loop of `acquireLock` against an environment giving the lock
table observed at each attempt (other processes may change it between
attempts).  `fuel` bounds how far we unroll the unbounded loop; on a failed
attempt the loop sleeps 100 time-units and retries.  Returns the attempt
index that succeeded and the total time slept before it. -/
def acquireLockRun (env : Nat → List LockRow) :
    Nat → Nat → Nat → Option (Nat × Nat)
  | 0, _, _ => none
  | fuel + 1, attempt, slept =>
    if tryAcquireLockSucceeds (env attempt) then some (attempt, slept)
    else acquireLockRun env fuel (attempt + 1) (slept + 100)

/-! ### Bootstrap steps (`ensureMigrationTablesExists` and friends) -/

/-- Environment of one bootstrap step: whether the object exists at the
initial check, whether the creation call fails (and with which error), and
whether the object exists at the re-check performed after a failure. -/
structure BootEnv (ε : Type) where
  existsAtCheck : Bool
  createResult : Option ε
  existsAtRecheck : Bool

/-- How one bootstrap step ended when it did not propagate an error. -/
inductive BootOutcome where
  | skipped
  | created
  | racedOk
deriving DecidableEq

/-- Common shape of `ensureMigrationTableExists`, `ensureMigrationLockTableExists`
and `ensureLockRowExists`: skip when the object exists, create otherwise, and
on a creation failure re-check existence, swallowing the error when the
object turned up (a concurrent creator won the race) and propagating the
original error otherwise. -/
def ensureObjectStep {ε : Type} (env : BootEnv ε) : Except ε BootOutcome :=
  if env.existsAtCheck then .ok .skipped
  else
    match env.createResult with
    | none => .ok .created
    | some e => if env.existsAtRecheck then .ok .racedOk else .error e

/-- `ensureMigrationTableExists` (create `kysely_migration`). -/
def ensureMigrationTableExistsStep {ε : Type} (env : BootEnv ε) :
    Except ε BootOutcome :=
  ensureObjectStep env

/-- `ensureMigrationLockTableExists` (create `kysely_migration_lock`). -/
def ensureMigrationLockTableExistsStep {ε : Type} (env : BootEnv ε) :
    Except ε BootOutcome :=
  ensureObjectStep env

/-- `ensureLockRowExists` (insert the `migration_lock` row). -/
def ensureLockRowExistsStep {ε : Type} (env : BootEnv ε) :
    Except ε BootOutcome :=
  ensureObjectStep env

/-- The behaviour claimed for every bootstrap step: do nothing when the
object already exists; succeed quietly when a failed creation is explained
by a concurrent creator (the object exists on re-check); propagate the
original creation error exactly when the object still does not exist on
re-check. -/
def ensureStepSpec {ε : Type} (step : BootEnv ε → Except ε BootOutcome) : Prop :=
  ∀ env : BootEnv ε,
    (step env = .ok .skipped ↔ env.existsAtCheck = true) ∧
    (∀ e, step env = .error e ↔
      env.existsAtCheck = false ∧ env.createResult = some e ∧
        env.existsAtRecheck = false) ∧
    (step env = .ok .racedOk ↔
      env.existsAtCheck = false ∧ env.createResult ≠ none ∧
        env.existsAtRecheck = true) ∧
    (step env = .ok .created ↔
      env.existsAtCheck = false ∧ env.createResult = none)

/-! ### Migration folder loader (`readMigrationsFromFolder` / `isMigration`) -/

/-- What dynamic `import` of a file yields: possibly no module at all, and a
module whose `up` / `down` members may or may not be functions. -/
structure JsModule (σ ε : Type) where
  up : Option (σ → Except ε σ)
  down : Option (σ → Except ε σ)

/-- `isMigration(obj)`: the import produced an object with function members
`up` and `down`. -/
def isMigrationModule {σ ε : Type} : Option (JsModule σ ε) → Bool
  | none => false
  | some m => m.up.isSome && m.down.isSome

/-- `file.endsWith(suffix)` on the character data of the strings. -/
def strEndsWith (s suffix2 : String) : Bool :=
  List.isSuffixOf suffix2.data s.data

/-- The file filter of `readMigrationsFromFolder`:
`(file.endsWith('.js') || file.endsWith('.ts')) && !file.endsWith('.d.ts')`. -/
def isMigrationFile (file : String) : Bool :=
  (strEndsWith file ".js" || strEndsWith file ".ts") && !(strEndsWith file ".d.ts")

/-- `migrations[name] = migration` on a record with unique keys: replace the
value when the key is present, append otherwise. -/
def setKey {σ ε : Type} :
    List (String × Migration σ ε) → String → Migration σ ε →
    List (String × Migration σ ε)
  | [], k, v => [(k, v)]
  | (k2, v2) :: rest, k, v =>
    if k = k2 then (k, v) :: rest else (k2, v2) :: setKey rest k v

/-- The loop of `readMigrationsFromFolder` over the directory listing, with
the accumulated record: skip files failing the suffix filter, import the
rest, and keep those whose module passes `isMigration`, keyed by the file
name with its last three characters removed
(`file.substring(0, file.length - 3)`). -/
def readFolderLoop {σ ε : Type} :
    List (String × Option (JsModule σ ε)) → List (String × Migration σ ε) →
    List (String × Migration σ ε)
  | [], migrations => migrations
  | (file, module2) :: rest, migrations =>
    if isMigrationFile file then
      match module2 with
      | some m =>
        match m.up, m.down with
        | some u, some d =>
          readFolderLoop rest
            (setKey migrations (file.take (file.length - 3)) ⟨u, d⟩)
        | _, _ => readFolderLoop rest migrations
      | none => readFolderLoop rest migrations
    else readFolderLoop rest migrations

/-- `readMigrationsFromFolder`: the directory listing is modelled as the
list of file names paired with what importing each file would yield. -/
def readMigrationsFromFolder {σ ε : Type}
    (files : List (String × Option (JsModule σ ε))) :
    List (String × Migration σ ε) :=
  readFolderLoop files []

/-- Specification-side view of one directory entry: the migration (and its
derived name) the entry contributes, if any. -/
def eligibleEntry {σ ε : Type} (p : String × Option (JsModule σ ε)) :
    Option (String × Migration σ ε) :=
  if isMigrationFile p.1 then
    match p.2 with
    | some m =>
      match m.up, m.down with
      | some u, some d => some (p.1.take (p.1.length - 3), ⟨u, d⟩)
      | _, _ => none
    | none => none
  else none

/-- The migration a name is bound to after a folder read: the value of the
last eligible directory entry deriving that name. -/
def lastEligible {σ ε : Type} (name : String)
    (files : List (String × Option (JsModule σ ε))) : Option (Migration σ ε) :=
  (((files.filterMap eligibleEntry).filter
      (fun q => decide (q.1 = name))).getLast?).map Prod.snd

/-! ### Concrete fixtures used by witnesses and the counterexample -/

/-- A forward/reverse pair that always succeeds, counting applications. -/
def demoMig : Migration Nat Nat :=
  ⟨fun n => .ok (n + 1), fun n => .ok n⟩

/-- A migration whose forward operation always fails with error `7`. -/
def failMig : Migration Nat Nat :=
  ⟨fun _ => .error 7, fun n => .ok n⟩

/-- A trivial migration with `String` names' state. -/
def unitMig : Migration Unit Unit :=
  ⟨fun _ => .ok (), fun _ => .ok ()⟩

/-- A lock-table environment for exercising the retry loop: the first two
attempts see no matching row, the third sees the unlocked lock row. -/
def demoLockEnv : Nat → List LockRow :=
  fun j => if j < 2 then [] else [⟨MIGRATION_LOCK_ID, 0⟩]


end Kysely

namespace Kysely

variable {ν σ ε : Type}

section SortHelpers

variable [LinearOrder ν]

theorem sortNames_perm (l : List ν) : List.Perm (sortNames l) l :=
  List.perm_insertionSort _ l

theorem sortNames_sorted (l : List ν) : (sortNames l).Sorted (· ≤ ·) :=
  List.sorted_insertionSort _ l

theorem sortNames_nodup {l : List ν} (h : l.Nodup) : (sortNames l).Nodup :=
  ((sortNames_perm l).nodup_iff).mpr h

theorem sortNames_length (l : List ν) : (sortNames l).length = l.length :=
  (sortNames_perm l).length_eq

theorem sortNames_mem {a : ν} {l : List ν} : a ∈ sortNames l ↔ a ∈ l :=
  (sortNames_perm l).mem_iff

theorem sorted_strict_of_nodup {l : List ν}
    (hs : l.Sorted (· ≤ ·)) (hn : l.Nodup) : l.Pairwise (· < ·) :=
  (hs.and hn).imp (fun h => lt_of_le_of_ne h.1 h.2)

theorem sortNames_strict {l : List ν} (hn : l.Nodup) :
    (sortNames l).Pairwise (· < ·) :=
  sorted_strict_of_nodup (sortNames_sorted l) (sortNames_nodup hn)

theorem sorted_le_getLast {l : List ν} (hs : l.Sorted (· ≤ ·)) {b : ν}
    (hb : l.getLast? = some b) : ∀ x ∈ l, x ≤ b := by
  induction l with
  | nil => simp at hb
  | cons a t ih =>
    intro x hx
    cases t with
    | nil =>
      have hab : a = b := by simpa using hb
      have hxa : x = a := by simpa using hx
      exact le_of_eq (hxa.trans hab)
    | cons c u =>
      have hb2 : (c :: u).getLast? = some b := by
        simpa [List.getLast?_cons] using hb
      rcases List.mem_cons.mp hx with rfl | hx2
      · have hbmem : b ∈ c :: u := by
          rcases List.mem_getLast?_eq_getLast (Option.mem_def.mpr hb2) with ⟨hne, hbe⟩
          exact hbe ▸ List.getLast_mem hne
        exact (List.sorted_cons.mp hs).1 b hbmem
      · exact ih (List.sorted_cons.mp hs).2 hb2 x hx2

end SortHelpers

section LookupHelpers

variable [DecidableEq ν]

theorem lookupName_eq_some {migs : List (ν × Migration σ ε)} {n : ν}
    {m : Migration σ ε} (h : lookupName n migs = some m) : (n, m) ∈ migs := by
  induction migs with
  | nil => simp [lookupName] at h
  | cons p rest ih =>
    obtain ⟨k, v⟩ := p
    simp only [lookupName] at h
    split at h
    · rename_i hk
      injection h with h2
      subst hk
      subst h2
      exact List.mem_cons_self _ _
    · exact List.mem_cons_of_mem _ (ih h)

theorem lookupName_isSome {migs : List (ν × Migration σ ε)} {n : ν}
    (h : n ∈ migs.map Prod.fst) : (lookupName n migs).isSome := by
  induction migs with
  | nil => simp at h
  | cons p rest ih =>
    obtain ⟨k, v⟩ := p
    simp only [lookupName]
    split
    · simp
    · rename_i hk
      simp only [List.map_cons, List.mem_cons] at h
      rcases h with h | h
      · exact absurd h hk
      · exact ih h

end LookupHelpers

end Kysely

namespace Kysely

variable {ν σ ε : Type}

section FindIdxHelpers

variable [DecidableEq ν]

theorem findIdx_fst_eq {β : Type} (l : List (ν × β)) (a : ν) :
    l.findIdx (fun it => decide (it.1 = a)) =
      (l.map Prod.fst).findIdx (fun n => decide (n = a)) := by
  induction l with
  | nil => rfl
  | cons p rest ih =>
    simp only [List.findIdx_cons, List.map_cons, ih]

theorem findIdx_of_nodup {l : List ν} (hn : l.Nodup) {i : Nat}
    (hi : i < l.length) {a : ν} (ha : l[i] = a) :
    l.findIdx (fun x => decide (x = a)) = i := by
  induction l generalizing i with
  | nil => simp at hi
  | cons x t ih =>
    cases i with
    | zero =>
      simp only [List.getElem_cons_zero] at ha
      subst ha
      simp [List.findIdx_cons]
    | succ j =>
      simp only [List.getElem_cons_succ] at ha
      have hj : j < t.length := by simpa using hi
      have hxa : ¬(x = a) := by
        intro hxe
        subst hxe
        exact (List.nodup_cons.mp hn).1 (ha ▸ List.getElem_mem hj)
      rw [List.findIdx_cons]
      have hdec : decide (x = a) = false := decide_eq_false hxa
      rw [hdec]
      simp only [cond_false]
      exact congrArg (· + 1) (ih (List.nodup_cons.mp hn).2 hj ha)

theorem sortedMigrationsOf_map_fst (migs : List (ν × Migration σ ε))
    [LinearOrder ν] :
    (sortedMigrationsOf migs).map Prod.fst = sortNames (migs.map Prod.fst) := by
  unfold sortedMigrationsOf
  have hgen : ∀ ns : List ν, (∀ n ∈ ns, n ∈ migs.map Prod.fst) →
      ((ns.filterMap
        (fun name => (lookupName name migs).map (fun m => (name, m)))).map Prod.fst) = ns := by
    intro ns hns
    induction ns with
    | nil => rfl
    | cons n rest ih =>
      have hmem : n ∈ migs.map Prod.fst := hns n (List.mem_cons_self _ _)
      obtain ⟨m, hm⟩ := Option.isSome_iff_exists.mp (lookupName_isSome hmem)
      simp only [List.filterMap_cons, hm, Option.map_some, List.map_cons]
      exact congrArg (n :: ·) (ih (fun x hx => hns x (List.mem_cons_of_mem _ hx)))
  exact hgen _ (fun n hn => sortNames_mem.mp hn)

theorem mem_sortedMigrationsOf {migs : List (ν × Migration σ ε)}
    [LinearOrder ν] {p : ν × Migration σ ε}
    (h : p ∈ sortedMigrationsOf migs) : p ∈ migs := by
  unfold sortedMigrationsOf at h
  rcases List.mem_filterMap.mp h with ⟨n, _, hmap⟩
  rcases Option.map_eq_some'.mp hmap with ⟨m, hm, hp⟩
  exact hp ▸ lookupName_eq_some hm

theorem ensure_self (l : List ν) :
    ensureMigrationsAreNotCorrupted (ε := ε) l l = none := by
  unfold ensureMigrationsAreNotCorrupted
  have hfind : l.find? (fun it => !(decide (it ∈ l))) = none :=
    List.find?_eq_none.mpr (fun x hx => by simp [hx])
  simp [hfind]

end FindIdxHelpers

end Kysely

namespace Kysely

variable {ν σ ε : Type}

section ApplyLoopHelpers

variable [DecidableEq ν]

theorem applyLoop_ok (pending : List (ν × Migration σ ε)) (s : DbState ν σ)
    (hfresh : ∀ p ∈ pending, p.1 ∉ s.ledger)
    (hnd : (pending.map Prod.fst).Nodup)
    (hup : ∀ p ∈ pending, ∀ sch, ∃ sch2, p.2.up sch = Except.ok sch2) :
    ∃ s2, applyLoop pending s = (pending.map Prod.fst, Except.ok s2) ∧
      s2.ledger = s.ledger ++ pending.map Prod.fst ∧
      s2.locked = s.locked ∧ s2.bootstrapped = s.bootstrapped := by
  induction pending generalizing s with
  | nil => exact ⟨s, rfl, by simp, rfl, rfl⟩
  | cons p rest ih =>
    obtain ⟨name, mig⟩ := p
    obtain ⟨sch2, hsch⟩ := hup (name, mig) (List.mem_cons_self _ _) s.schema
    have hsch2 : mig.up s.schema = Except.ok sch2 := hsch
    have hnotmem : name ∉ s.ledger := hfresh _ (List.mem_cons_self _ _)
    have hname_rest : name ∉ rest.map Prod.fst := (List.nodup_cons.mp hnd).1
    set s3 : DbState ν σ :=
      { s with schema := sch2, ledger := s.ledger ++ [name] } with hs3
    have hfresh3 : ∀ q ∈ rest, q.1 ∉ s3.ledger := by
      intro q hq
      simp only [hs3, List.mem_append, List.mem_singleton]
      rintro (hmem | hmem)
      · exact hfresh q (List.mem_cons_of_mem _ hq) hmem
      · exact hname_rest (hmem ▸ List.mem_map_of_mem Prod.fst hq)
    obtain ⟨s2, heq, hled, hlock, hboot⟩ :=
      ih s3 hfresh3 (List.nodup_cons.mp hnd).2
        (fun q hq => hup q (List.mem_cons_of_mem _ hq))
    refine ⟨s2, ?_, ?_, hlock, hboot⟩
    · simp only [applyLoop, hsch2, if_neg hnotmem, List.append_eq, heq, List.map_cons]
    · simp only [hled, hs3, List.append_assoc, List.singleton_append, List.map_cons]

theorem applyLoop_ok_inv {pending : List (ν × Migration σ ε)} {s : DbState ν σ}
    {tr : List ν} {s2 : DbState ν σ}
    (h : applyLoop pending s = (tr, Except.ok s2)) :
    tr = pending.map Prod.fst ∧
    s2.ledger = s.ledger ++ pending.map Prod.fst ∧
    s2.locked = s.locked ∧ s2.bootstrapped = s.bootstrapped := by
  induction pending generalizing s tr with
  | nil =>
    simp only [applyLoop, Prod.mk.injEq] at h
    obtain ⟨h1, h2⟩ := h
    cases h2
    exact ⟨h1.symm, by simp, rfl, rfl⟩
  | cons p rest ih =>
    obtain ⟨name, mig⟩ := p
    cases hu : mig.up s.schema with
    | error e =>
      simp only [applyLoop, hu, Prod.mk.injEq] at h
      exact absurd h.2 (by simp)
    | ok sch2 =>
      by_cases hmem : name ∈ s.ledger
      · simp only [applyLoop, hu, if_pos hmem, Prod.mk.injEq] at h
        exact absurd h.2 (by simp)
      · cases happ : applyLoop rest { s with schema := sch2, ledger := s.ledger ++ [name] } with
        | mk tr2 r2 =>
          simp only [applyLoop, hu, if_neg hmem, happ, Prod.mk.injEq] at h
          obtain ⟨htr, hr⟩ := h
          cases hr
          obtain ⟨h1, h2, h3, h4⟩ := ih happ
          subst h1
          refine ⟨htr.symm, ?_, h3, h4⟩
          simpa [List.append_assoc] using h2

theorem applyLoop_dupFree (pending : List (ν × Migration σ ε)) (s : DbState ν σ)
    (hfresh : ∀ p ∈ pending, p.1 ∉ s.ledger)
    (hnd : (pending.map Prod.fst).Nodup) :
    dupFree (applyLoop pending s).2 = true := by
  induction pending generalizing s with
  | nil => rfl
  | cons p rest ih =>
    obtain ⟨name, mig⟩ := p
    cases hu : mig.up s.schema with
    | error e => simp [applyLoop, hu, dupFree]
    | ok sch2 =>
      have hnotmem : name ∉ s.ledger := hfresh _ (List.mem_cons_self _ _)
      have hname_rest : name ∉ rest.map Prod.fst := (List.nodup_cons.mp hnd).1
      set s3 : DbState ν σ :=
        { s with schema := sch2, ledger := s.ledger ++ [name] } with hs3
      have hfresh3 : ∀ q ∈ rest, q.1 ∉ s3.ledger := by
        intro q hq
        simp only [hs3, List.mem_append, List.mem_singleton]
        rintro (hmem | hmem)
        · exact hfresh q (List.mem_cons_of_mem _ hq) hmem
        · exact hname_rest (hmem ▸ List.mem_map_of_mem Prod.fst hq)
      cases happ : applyLoop rest s3 with
      | mk tr2 r2 =>
        have hgoal := ih s3 hfresh3 (List.nodup_cons.mp hnd).2
        rw [happ] at hgoal
        simp only [applyLoop, hu, if_neg hnotmem, happ]
        exact hgoal

theorem applyLoop_fail (pre : List (ν × Migration σ ε))
    (post : List (ν × Migration σ ε)) (nf : ν) (mf : Migration σ ε)
    (e : ε) (s : DbState ν σ)
    (hfresh : ∀ p ∈ pre, p.1 ∉ s.ledger)
    (hnd : (pre.map Prod.fst).Nodup)
    (hpre : ∀ p ∈ pre, ∀ sch, ∃ sch2, p.2.up sch = Except.ok sch2)
    (hf : ∀ sch, mf.up sch = Except.error e) :
    ∃ sErr, applyLoop (pre ++ (nf, mf) :: post) s =
      (pre.map Prod.fst ++ [nf], Except.error (.opError e, sErr)) := by
  induction pre generalizing s with
  | nil =>
    refine ⟨s, ?_⟩
    simp only [List.nil_append, applyLoop, hf s.schema, List.map_nil]
  | cons p rest ih =>
    obtain ⟨name, mig⟩ := p
    obtain ⟨sch2, hsch⟩ := hpre (name, mig) (List.mem_cons_self _ _) s.schema
    have hsch2 : mig.up s.schema = Except.ok sch2 := hsch
    have hnotmem : name ∉ s.ledger := hfresh _ (List.mem_cons_self _ _)
    have hname_rest : name ∉ rest.map Prod.fst := (List.nodup_cons.mp hnd).1
    set s3 : DbState ν σ :=
      { s with schema := sch2, ledger := s.ledger ++ [name] } with hs3
    have hfresh3 : ∀ q ∈ rest, q.1 ∉ s3.ledger := by
      intro q hq
      simp only [hs3, List.mem_append, List.mem_singleton]
      rintro (hmem | hmem)
      · exact hfresh q (List.mem_cons_of_mem _ hq) hmem
      · exact hname_rest (hmem ▸ List.mem_map_of_mem Prod.fst hq)
    obtain ⟨sErr, heq⟩ :=
      ih s3 hfresh3 (List.nodup_cons.mp hnd).2
        (fun q hq => hpre q (List.mem_cons_of_mem _ hq))
    refine ⟨sErr, ?_⟩
    simp only [List.cons_append, applyLoop, hsch2, if_neg hnotmem, List.append_eq, heq, List.map_cons]

end ApplyLoopHelpers

end Kysely

namespace Kysely

variable {ν σ ε : Type}

section ReductionHelpers

variable [LinearOrder ν]

theorem sortNames_nil : sortNames ([] : List ν) = [] := rfl

theorem pendingPairs_map_fst [DecidableEq ν] (migs : List (ν × Migration σ ε)) (ledger : List ν) :
    (pendingPairsOf migs ledger).map Prod.fst =
      pendingNamesOf (migs.map Prod.fst) ledger := by
  unfold pendingPairsOf pendingNamesOf
  rw [List.map_drop, sortedMigrationsOf_map_fst]

theorem pendingNames_nodup {migrationNames : List ν} (hkeys : migrationNames.Nodup)
    (ledger : List ν) : (pendingNamesOf migrationNames ledger).Nodup :=
  (List.drop_sublist _ _).nodup (sortNames_nodup hkeys)

theorem pendingNames_strict {migrationNames : List ν} (hkeys : migrationNames.Nodup)
    (ledger : List ν) : (pendingNamesOf migrationNames ledger).Pairwise (· < ·) :=
  (sortNames_strict hkeys).sublist (List.drop_sublist _ _)

theorem pendingPairs_fresh [DecidableEq ν] {migs : List (ν × Migration σ ε)} {s : DbState ν σ}
    (hkeys : (migs.map Prod.fst).Nodup)
    (hI1 : I1 (migs.map Prod.fst) s.ledger) :
    ∀ p ∈ pendingPairsOf migs s.ledger, p.1 ∉ s.ledger := by
  intro p hp hmem
  have h1 : p.1 ∈ pendingNamesOf (migs.map Prod.fst) s.ledger := by
    rw [← pendingPairs_map_fst]
    exact List.mem_map_of_mem Prod.fst hp
  have h2 : p.1 ∈ (sortNames (migs.map Prod.fst)).take s.ledger.length := by
    rw [← hI1]
    exact sortNames_mem.mpr hmem
  exact List.disjoint_take_drop (sortNames_nodup hkeys) (le_refl s.ledger.length) h2 h1

theorem ledger_all_lt_pending {migs : List (ν × Migration σ ε)} {s : DbState ν σ}
    (hkeys : (migs.map Prod.fst).Nodup)
    (hI1 : I1 (migs.map Prod.fst) s.ledger) :
    ∀ n ∈ pendingNamesOf (migs.map Prod.fst) s.ledger, ∀ b ∈ s.ledger, b < n := by
  intro n hn b hb
  have hsplit := List.take_append_drop s.ledger.length (sortNames (migs.map Prod.fst))
  have hpw : ((sortNames (migs.map Prod.fst)).take s.ledger.length ++
      (sortNames (migs.map Prod.fst)).drop s.ledger.length).Pairwise (· < ·) := by
    rw [hsplit]
    exact sortNames_strict hkeys
  have hcross := (List.pairwise_append.mp hpw).2.2
  have hbtake : b ∈ (sortNames (migs.map Prod.fst)).take s.ledger.length := by
    rw [← hI1]
    exact sortNames_mem.mpr hb
  exact hcross b hbtake n hn

theorem I1_length_le {migrationNames ledger : List ν}
    (hI1 : I1 migrationNames ledger) :
    ledger.length ≤ (sortNames migrationNames).length := by
  have h := congrArg List.length hI1
  rw [sortNames_length, List.length_take] at h
  omega

theorem runNewMigrations_eq_applyLoop [DecidableEq ν] (migs : List (ν × Migration σ ε))
    (s : DbState ν σ)
    (hkeys : (migs.map Prod.fst).Nodup)
    (hI1 : I1 (migs.map Prod.fst) s.ledger) :
    runNewMigrations migs s = applyLoop (pendingPairsOf migs s.ledger) s := by
  have hsortedM : (sortedMigrationsOf migs).map Prod.fst =
      sortNames (migs.map Prod.fst) := sortedMigrationsOf_map_fst migs
  have hlenM : (sortedMigrationsOf migs).length =
      (sortNames (migs.map Prod.fst)).length := by
    rw [← hsortedM, List.length_map]
  have hnodup : (sortNames (migs.map Prod.fst)).Nodup := sortNames_nodup hkeys
  have hk_le : s.ledger.length ≤ (sortNames (migs.map Prod.fst)).length :=
    I1_length_le hI1
  rcases Nat.eq_zero_or_pos s.ledger.length with hk0 | hkpos
  · have hle : s.ledger = [] := List.length_eq_zero.mp hk0
    simp only [runNewMigrations, hle, sortNames_nil, List.getLast?_nil,
      ensureMigrationsAreNotCorrupted, List.map_nil, List.find?_nil,
      pendingPairsOf, List.drop_zero, List.length_nil]
  · have hidx : s.ledger.length - 1 < (sortNames (migs.map Prod.fst)).length := by
      omega
    set lastName : ν := (sortNames (migs.map Prod.fst)).get ⟨s.ledger.length - 1, hidx⟩
      with hlastdef
    have htklen : ((sortNames (migs.map Prod.fst)).take s.ledger.length).length
        = s.ledger.length := by
      rw [List.length_take]
      omega
    have hlast : (sortNames s.ledger).getLast? = some lastName := by
      rw [hI1, List.getLast?_eq_getElem?, htklen, List.getElem?_take,
        if_pos (by omega : s.ledger.length - 1 < s.ledger.length)]
      rw [List.getElem?_eq_getElem hidx]
      rfl
    have hfind : (sortedMigrationsOf migs).findIdx
        (fun it => decide (it.1 = lastName)) = s.ledger.length - 1 := by
      rw [findIdx_fst_eq, hsortedM]
      exact findIdx_of_nodup hnodup hidx
        (List.get_eq_getElem (sortNames (List.map Prod.fst migs))
          ⟨s.ledger.length - 1, hidx⟩).symm
    have hne : ¬(s.ledger.length - 1 = (sortedMigrationsOf migs).length) := by
      omega
    have hsucc : s.ledger.length - 1 + 1 = s.ledger.length := by omega
    have holdmap : ((sortedMigrationsOf migs).take s.ledger.length).map Prod.fst =
        (sortNames s.ledger) := by
      rw [List.map_take, hsortedM, hI1]
    have hens : ensureMigrationsAreNotCorrupted (ε := ε) (sortNames s.ledger)
        (((sortedMigrationsOf migs).take s.ledger.length).map Prod.fst) = none := by
      rw [holdmap]
      exact ensure_self _
    simp only [runNewMigrations, hlast, hfind, if_neg hne, hsucc, hens,
      pendingPairsOf]

end ReductionHelpers

end Kysely

namespace Kysely

variable {ν σ ε : Type}

section OrderHelpers

variable [LinearOrder ν]

theorem drop_eq_filter_gt {l : List ν} (hpw : l.Pairwise (· < ·))
    {k : Nat} (hk1 : 1 ≤ k) (hk : k ≤ l.length) (hidx : k - 1 < l.length)
    {last : ν} (hlast : l.get ⟨k - 1, hidx⟩ = last) :
    l.drop k = l.filter (fun n => decide (last < n)) := by
  have hsplit := List.take_append_drop k l
  have hpw2 : (l.take k ++ l.drop k).Pairwise (· < ·) := by
    rw [hsplit]
    exact hpw
  obtain ⟨hpwtake, hpwdrop, hcross⟩ := List.pairwise_append.mp hpw2
  have htklen : (l.take k).length = k := by
    rw [List.length_take]
    omega
  have htkget : ∀ h2 : k - 1 < (l.take k).length, (l.take k).get ⟨k - 1, h2⟩ = last := by
    intro h2
    rw [List.get_eq_getElem, List.getElem_take, ← hlast, List.get_eq_getElem]
  have hlastmem : last ∈ l.take k := by
    have h2 : k - 1 < (l.take k).length := by omega
    exact htkget h2 ▸ List.get_mem _ _ h2
  have hfilter_take : (l.take k).filter (fun n => decide (last < n)) = [] := by
    rw [List.filter_eq_nil_iff]
    intro a ha
    simp only [decide_eq_true_eq]
    rcases List.mem_iff_getElem.mp ha with ⟨i, hilen, hai⟩
    have hik : i < k := by omega
    rcases Nat.lt_or_ge i (k - 1) with hlt | hge
    · have hcmp := (List.pairwise_iff_getElem.mp hpwtake) i (k - 1) hilen (by omega) hlt
      have h2 : k - 1 < (l.take k).length := by omega
      rw [← List.get_eq_getElem (l.take k) ⟨k - 1, h2⟩, htkget h2, hai] at hcmp
      exact not_lt.mpr (le_of_lt hcmp)
    · have hieq : i = k - 1 := by omega
      subst hieq
      rw [← hai, ← List.get_eq_getElem (l.take k) ⟨k - 1, hilen⟩, htkget hilen]
      exact lt_irrefl last
  have hfilter_drop : (l.drop k).filter (fun n => decide (last < n)) = l.drop k := by
    rw [List.filter_eq_self]
    intro a ha
    simp only [decide_eq_true_eq]
    exact hcross last hlastmem a ha
  have hstep : l.filter (fun n => decide (last < n)) =
      (l.take k ++ l.drop k).filter (fun n => decide (last < n)) := by
    rw [hsplit]
  rw [hstep, List.filter_append, hfilter_take, hfilter_drop, List.nil_append]

theorem sortNames_ledger_append_pending {migrationNames ledger : List ν}
    (hI1 : I1 migrationNames ledger) :
    sortNames (ledger ++ pendingNamesOf migrationNames ledger) =
      sortNames migrationNames := by
  refine List.eq_of_perm_of_sorted ?_ (sortNames_sorted _) (sortNames_sorted _)
  have h1 : List.Perm (sortNames (ledger ++ pendingNamesOf migrationNames ledger))
      (ledger ++ pendingNamesOf migrationNames ledger) := sortNames_perm _
  have h2 : List.Perm (ledger ++ pendingNamesOf migrationNames ledger)
      (sortNames ledger ++ pendingNamesOf migrationNames ledger) :=
    List.Perm.append_right _ (sortNames_perm ledger).symm
  have h3 : sortNames ledger ++ pendingNamesOf migrationNames ledger =
      sortNames migrationNames := by
    rw [hI1]
    exact List.take_append_drop _ _
  exact (h1.trans h2).trans (h3 ▸ List.Perm.refl _)

end OrderHelpers

end Kysely

namespace Kysely

variable {ν σ ε : Type}

section PendingChar

variable [LinearOrder ν]

theorem pendingNames_char {migrationNames ledger : List ν}
    (hkeys : migrationNames.Nodup) (hI1 : I1 migrationNames ledger) :
    (match (sortNames ledger).getLast? with
     | none => pendingNamesOf migrationNames ledger = sortNames migrationNames
     | some last => pendingNamesOf migrationNames ledger =
         (sortNames migrationNames).filter (fun n => decide (last < n))) := by
  cases hl : (sortNames ledger).getLast? with
  | none =>
    have hnil : sortNames ledger = [] := List.getLast?_eq_none_iff.mp hl
    have hlen0 : ledger.length = 0 := by
      rw [← sortNames_length ledger, hnil]
      rfl
    unfold pendingNamesOf
    rw [hlen0, List.drop_zero]
  | some last =>
    have hne : sortNames ledger ≠ [] := by
      intro h
      rw [h] at hl
      simp at hl
    have hk1 : 1 ≤ ledger.length := by
      rcases Nat.eq_zero_or_pos ledger.length with h0 | h
      · exact absurd (by rw [List.length_eq_zero.mp h0]; rfl) hne
      · exact h
    have hk_le := I1_length_le hI1
    have hidx : ledger.length - 1 < (sortNames migrationNames).length := by omega
    have hlast2 : (sortNames migrationNames).get ⟨ledger.length - 1, hidx⟩ = last := by
      rw [hI1] at hl
      have htklen : ((sortNames migrationNames).take ledger.length).length
          = ledger.length := by
        rw [List.length_take]
        omega
      rw [List.getLast?_eq_getElem?, htklen, List.getElem?_take,
        if_pos (by omega : ledger.length - 1 < ledger.length),
        List.getElem?_eq_getElem hidx] at hl
      rw [Option.some.injEq] at hl
      rw [List.get_eq_getElem]
      exact hl
    unfold pendingNamesOf
    exact drop_eq_filter_gt (sortNames_strict hkeys) hk1 hk_le hidx hlast2

end PendingChar

section ClaimC1C5C8

variable [LinearOrder ν] [DecidableEq ν]

/-- **C1**: for every migration set and every ledger satisfying Invariant I1,
`runNewMigrations` (with all forward operations able to succeed) applies
exactly the pending migrations — the sorted set names past the executed
initial segment, which equal the whole sorted sequence when the ledger is
empty and the names strictly greater than the last executed name otherwise —
each exactly once and in ascending name order (the trace is strictly
increasing), invoking each `up` and appending each name to the ledger in that
order, while the already-executed ledger entries stay untouched as the
unchanged front of the final ledger. -/
theorem runNewMigrations_applies_exactly_pending
    (migs : List (ν × Migration σ ε)) (s : DbState ν σ)
    (hkeys : (migs.map Prod.fst).Nodup)
    (hI1 : I1 (migs.map Prod.fst) s.ledger)
    (hup : ∀ p ∈ migs, ∀ sch, ∃ sch2, p.2.up sch = Except.ok sch2) :
    ∃ s2,
      runNewMigrations migs s =
        (pendingNamesOf (migs.map Prod.fst) s.ledger, Except.ok s2) ∧
      s2.ledger = s.ledger ++ pendingNamesOf (migs.map Prod.fst) s.ledger ∧
      (pendingNamesOf (migs.map Prod.fst) s.ledger).Pairwise (· < ·) ∧
      (match (sortNames s.ledger).getLast? with
       | none => pendingNamesOf (migs.map Prod.fst) s.ledger =
           sortNames (migs.map Prod.fst)
       | some last => pendingNamesOf (migs.map Prod.fst) s.ledger =
           (sortNames (migs.map Prod.fst)).filter (fun n => decide (last < n))) := by
  have hred := runNewMigrations_eq_applyLoop migs s hkeys hI1
  have hfresh := pendingPairs_fresh hkeys hI1
  have hnd : ((pendingPairsOf migs s.ledger).map Prod.fst).Nodup := by
    rw [pendingPairs_map_fst]
    exact pendingNames_nodup hkeys _
  have hup2 : ∀ p ∈ pendingPairsOf migs s.ledger, ∀ sch, ∃ sch2,
      p.2.up sch = Except.ok sch2 :=
    fun p hp =>
      hup p (mem_sortedMigrationsOf ((List.drop_sublist _ _).subset hp))
  obtain ⟨s2, heq, hledeq, _, _⟩ := applyLoop_ok _ s hfresh hnd hup2
  refine ⟨s2, ?_, ?_, pendingNames_strict hkeys _, pendingNames_char hkeys hI1⟩
  · rw [hred, heq, pendingPairs_map_fst]
  · rw [hledeq, pendingPairs_map_fst]

/-- **C5**: Invariant I1 is preserved — for every migration set and ledger
satisfying I1, after a successful `runNewMigrations` the ledger is again an
initial segment, in sorted order, of the sorted migration-set names; indeed
it is the full sorted sequence (in particular when any migration was
pending). -/
theorem runNewMigrations_preserves_I1
    (migs : List (ν × Migration σ ε)) (s : DbState ν σ)
    (tr : List ν) (s2 : DbState ν σ)
    (hkeys : (migs.map Prod.fst).Nodup)
    (hI1 : I1 (migs.map Prod.fst) s.ledger)
    (hrun : runNewMigrations migs s = (tr, Except.ok s2)) :
    I1 (migs.map Prod.fst) s2.ledger ∧
    (pendingNamesOf (migs.map Prod.fst) s.ledger ≠ [] →
      sortNames s2.ledger = sortNames (migs.map Prod.fst)) := by
  rw [runNewMigrations_eq_applyLoop migs s hkeys hI1] at hrun
  obtain ⟨htr, hledeq, _, _⟩ := applyLoop_ok_inv hrun
  rw [pendingPairs_map_fst] at hledeq
  have hsort : sortNames s2.ledger = sortNames (migs.map Prod.fst) := by
    rw [hledeq]
    exact sortNames_ledger_append_pending hI1
  have hlen : s2.ledger.length = (sortNames (migs.map Prod.fst)).length := by
    rw [hledeq, List.length_append]
    unfold pendingNamesOf
    rw [List.length_drop]
    have := I1_length_le hI1
    omega
  constructor
  · unfold I1
    rw [hsort, hlen, List.take_length]
  · intro _
    exact hsort

/-- **C8**: under Invariant I1, the pending names are pairwise distinct and
each sorts strictly after every existing ledger entry, so every name the
apply loop inserts is absent from the ledger at the moment of its insertion
and the duplicate-primary-key failure branch of the insert is unreachable:
`runNewMigrations` never returns the duplicate-name error. -/
theorem runNewMigrations_duplicate_branch_unreachable
    (migs : List (ν × Migration σ ε)) (s : DbState ν σ)
    (hkeys : (migs.map Prod.fst).Nodup)
    (hI1 : I1 (migs.map Prod.fst) s.ledger) :
    (pendingNamesOf (migs.map Prod.fst) s.ledger).Nodup ∧
    (∀ n ∈ pendingNamesOf (migs.map Prod.fst) s.ledger, ∀ b ∈ s.ledger, b < n) ∧
    dupFree (runNewMigrations migs s).2 = true := by
  refine ⟨pendingNames_nodup hkeys _, ledger_all_lt_pending hkeys hI1, ?_⟩
  rw [runNewMigrations_eq_applyLoop migs s hkeys hI1]
  exact applyLoop_dupFree _ s (pendingPairs_fresh hkeys hI1)
    (by rw [pendingPairs_map_fst]; exact pendingNames_nodup hkeys _)

end ClaimC1C5C8

end Kysely

namespace Kysely

variable {ν σ ε : Type}

section MigrateToLatest

variable [LinearOrder ν] [DecidableEq ν]

theorem doMigrateToLatest_unfold_free (migs : List (ν × Migration σ ε))
    (s : DbState ν σ) (hlock : s.locked = false) :
    doMigrateToLatest migs s =
      (match runNewMigrations migs
          { s with bootstrapped := true, locked := true } with
       | (tr, .ok s2) => some (tr, .ok (), releaseLock s2)
       | (tr, .error (e, _)) => some (tr, .error e, { s with bootstrapped := true })) := by
  unfold doMigrateToLatest ensureMigrationTablesExists acquireLock tryAcquireLock
  simp only [hlock, if_pos]

theorem doMigrateToLatest_ok (migs : List (ν × Migration σ ε)) (s : DbState ν σ)
    (hkeys : (migs.map Prod.fst).Nodup)
    (hI1 : I1 (migs.map Prod.fst) s.ledger)
    (hlock : s.locked = false)
    (hup : ∀ p ∈ migs, ∀ sch, ∃ sch2, p.2.up sch = Except.ok sch2) :
    ∃ s2, doMigrateToLatest migs s =
        some (pendingNamesOf (migs.map Prod.fst) s.ledger, Except.ok (), s2) ∧
      s2.ledger = s.ledger ++ pendingNamesOf (migs.map Prod.fst) s.ledger ∧
      s2.locked = false ∧ s2.bootstrapped = true := by
  set s1 : DbState ν σ := { s with bootstrapped := true, locked := true } with hs1
  have hI1b : I1 (migs.map Prod.fst) s1.ledger := hI1
  have hfresh : ∀ p ∈ pendingPairsOf migs s1.ledger, p.1 ∉ s1.ledger :=
    pendingPairs_fresh hkeys hI1b
  have hnd : ((pendingPairsOf migs s1.ledger).map Prod.fst).Nodup := by
    rw [pendingPairs_map_fst]
    exact pendingNames_nodup hkeys _
  have hup2 : ∀ p ∈ pendingPairsOf migs s1.ledger, ∀ sch, ∃ sch2,
      p.2.up sch = Except.ok sch2 :=
    fun p hp =>
      hup p (mem_sortedMigrationsOf ((List.drop_sublist _ _).subset hp))
  obtain ⟨s2, heq, hledeq, hlockeq, hbooteq⟩ := applyLoop_ok _ s1 hfresh hnd hup2
  have hrun : runNewMigrations migs s1 =
      (pendingNamesOf (migs.map Prod.fst) s.ledger, Except.ok s2) := by
    rw [runNewMigrations_eq_applyLoop migs s1 hkeys hI1b, heq, pendingPairs_map_fst]
  refine ⟨releaseLock s2, ?_, ?_, rfl, hbooteq⟩
  · rw [doMigrateToLatest_unfold_free migs s hlock, hrun]
  · show s2.ledger = s.ledger ++ _
    rw [hledeq, pendingPairs_map_fst]

/-- **C2**: when the forward operation of a pending migration fails partway
through the batch, the whole call fails with that operation's error and the
enclosing transaction (wrapping lock acquisition, the apply loop and lock
release) rolls back: the database afterwards equals the pre-call state
except for the idempotent bootstrap flag, so in particular none of the batch
is reflected in the ledger even though the earlier migrations of the batch
had run and been recorded inside the transaction. -/
theorem doMigrateToLatest_rolls_back_on_op_failure
    (migs : List (ν × Migration σ ε)) (s : DbState ν σ)
    (pre post : List (ν × Migration σ ε)) (nf : ν) (mf : Migration σ ε) (e : ε)
    (hkeys : (migs.map Prod.fst).Nodup)
    (hI1 : I1 (migs.map Prod.fst) s.ledger)
    (hlock : s.locked = false)
    (hsplit : pendingPairsOf migs s.ledger = pre ++ (nf, mf) :: post)
    (hpre : ∀ p ∈ pre, ∀ sch, ∃ sch2, p.2.up sch = Except.ok sch2)
    (hf : ∀ sch, mf.up sch = Except.error e) :
    doMigrateToLatest migs s =
      some (pre.map Prod.fst ++ [nf], Except.error (.opError e),
        { s with bootstrapped := true }) ∧
    ({ s with bootstrapped := true } : DbState ν σ).ledger = s.ledger := by
  set s1 : DbState ν σ := { s with bootstrapped := true, locked := true } with hs1
  have hI1b : I1 (migs.map Prod.fst) s1.ledger := hI1
  have hfreshAll : ∀ p ∈ pendingPairsOf migs s1.ledger, p.1 ∉ s1.ledger :=
    pendingPairs_fresh hkeys hI1b
  have hndAll : ((pendingPairsOf migs s1.ledger).map Prod.fst).Nodup := by
    rw [pendingPairs_map_fst]
    exact pendingNames_nodup hkeys _
  have hsplit1 : pendingPairsOf migs s1.ledger = pre ++ (nf, mf) :: post := hsplit
  have hfresh : ∀ p ∈ pre, p.1 ∉ s1.ledger := by
    intro p hp
    exact hfreshAll p (hsplit1 ▸ List.mem_append_left _ hp)
  have hnd : (pre.map Prod.fst).Nodup := by
    rw [hsplit1, List.map_append] at hndAll
    exact hndAll.of_append_left
  obtain ⟨sErr, happly⟩ := applyLoop_fail pre post nf mf e s1 hfresh hnd hpre hf
  have hrun : runNewMigrations migs s1 =
      (pre.map Prod.fst ++ [nf], Except.error (.opError e, sErr)) := by
    rw [runNewMigrations_eq_applyLoop migs s1 hkeys hI1b, hsplit1, happly]
  constructor
  · rw [doMigrateToLatest_unfold_free migs s hlock, hrun]
  · rfl

/-- **C9**: two calls of the orchestrator for the same pending set, executed
one after the other — which is what the mutual-exclusion lock guarantees for
two concurrent calls, since at most one holds `is_locked = 1` and each call's
transaction serializes — apply each pending migration exactly once in total:
the first call applies exactly the pending names, the second finds nothing
pending and applies none, so each pending name occurs once in the combined
trace. -/
theorem serialized_runs_apply_each_pending_once
    (migs : List (ν × Migration σ ε)) (s : DbState ν σ)
    (hkeys : (migs.map Prod.fst).Nodup)
    (hI1 : I1 (migs.map Prod.fst) s.ledger)
    (hlock : s.locked = false)
    (hup : ∀ p ∈ migs, ∀ sch, ∃ sch2, p.2.up sch = Except.ok sch2) :
    ∃ tr1 tr2 s1 s2,
      doMigrateToLatest migs s = some (tr1, Except.ok (), s1) ∧
      doMigrateToLatest migs s1 = some (tr2, Except.ok (), s2) ∧
      tr1 ++ tr2 = pendingNamesOf (migs.map Prod.fst) s.ledger ∧
      ∀ n ∈ pendingNamesOf (migs.map Prod.fst) s.ledger,
        (tr1 ++ tr2).count n = 1 := by
  obtain ⟨s1, hd1, hled1, hlock1, _⟩ :=
    doMigrateToLatest_ok migs s hkeys hI1 hlock hup
  have hfull : sortNames s1.ledger = sortNames (migs.map Prod.fst) := by
    rw [hled1]
    exact sortNames_ledger_append_pending hI1
  have hlen1 : s1.ledger.length = (sortNames (migs.map Prod.fst)).length := by
    rw [hled1, List.length_append]
    unfold pendingNamesOf
    rw [List.length_drop]
    have := I1_length_le hI1
    omega
  have hI1s1 : I1 (migs.map Prod.fst) s1.ledger := by
    unfold I1
    rw [hfull, hlen1, List.take_length]
  have hP2 : pendingNamesOf (migs.map Prod.fst) s1.ledger = [] := by
    unfold pendingNamesOf
    exact List.drop_eq_nil_of_le (le_of_eq hlen1.symm)
  obtain ⟨s2, hd2, _, _, _⟩ :=
    doMigrateToLatest_ok migs s1 hkeys hI1s1 hlock1 hup
  rw [hP2] at hd2
  refine ⟨pendingNamesOf (migs.map Prod.fst) s.ledger, [], s1, s2, hd1, hd2, ?_, ?_⟩
  · exact List.append_nil _
  · intro n hn
    rw [List.append_nil]
    exact List.count_eq_one_of_mem (pendingNames_nodup hkeys _) hn

end MigrateToLatest

end Kysely

namespace Kysely

variable {ν σ ε : Type}

section Corruption

variable [LinearOrder ν]

theorem mem_take_of_le {l : List ν} (hpw : l.Pairwise (· < ·))
    {i : Nat} (hi : i < l.length) {a : ν} (ha : a ∈ l)
    (hle : a ≤ l.get ⟨i, hi⟩) : a ∈ l.take (i + 1) := by
  rcases List.mem_iff_getElem.mp ha with ⟨j, hj, hja⟩
  rcases Nat.lt_or_ge j (i + 1) with hcase | hcase
  · have h2 : j < (l.take (i + 1)).length := by
      rw [List.length_take]
      omega
    have hget : (l.take (i + 1)).get ⟨j, h2⟩ = a := by
      rw [List.get_eq_getElem, List.getElem_take, hja]
    exact hget ▸ List.get_mem _ _ h2
  · exfalso
    have hcmp := (List.pairwise_iff_getElem.mp hpw) i j hi hj (by omega)
    rw [hja] at hcmp
    rw [List.get_eq_getElem] at hle
    exact absurd hcmp (not_lt.mpr hle)

/-- **C3**: whenever the ledger contains a name that is absent from the
migration set, `runNewMigrations` fails with the corrupted-history error
whose reason is that a previously executed migration is missing, and applies
nothing: the trace of invoked forward operations is empty and the state is
returned unchanged, so no ledger entry was inserted. -/
theorem runNewMigrations_missing_executed_fails [DecidableEq ν]
    (migs : List (ν × Migration σ ε)) (s : DbState ν σ) (bad : ν)
    (hbad : bad ∈ s.ledger) (habs : bad ∉ migs.map Prod.fst) :
    ∃ c, runNewMigrations migs s =
      ([], Except.error (.corruptedMissing c, s)) := by
  have hbadex : bad ∈ sortNames s.ledger := sortNames_mem.mpr hbad
  cases hl : (sortNames s.ledger).getLast? with
  | none =>
    exact absurd (List.getLast?_eq_none_iff.mp hl)
      (List.ne_nil_of_mem hbadex)
  | some last =>
    by_cases hidx : (sortedMigrationsOf migs).findIdx
        (fun it => decide (it.1 = last)) = (sortedMigrationsOf migs).length
    · refine ⟨last, ?_⟩
      simp only [runNewMigrations, hl, hidx, if_pos]
    · have hbadold : bad ∉ ((sortedMigrationsOf migs).take
          ((sortedMigrationsOf migs).findIdx (fun it => decide (it.1 = last)) + 1)).map
            Prod.fst := by
        intro hmem
        have hsub : bad ∈ (sortedMigrationsOf migs).map Prod.fst :=
          ((List.take_sublist _ _).map Prod.fst).subset hmem
        rw [sortedMigrationsOf_map_fst] at hsub
        exact habs (sortNames_mem.mp hsub)
      have hbadold2 : bad ∉ ((sortedMigrationsOf migs).map Prod.fst).take
          ((sortedMigrationsOf migs).findIdx (fun it => decide (it.1 = last)) + 1) := by
        rw [← List.map_take]
        exact hbadold
      have hsome : ((sortNames s.ledger).find? (fun it => !(decide (it ∈
          ((sortedMigrationsOf migs).take
            ((sortedMigrationsOf migs).findIdx (fun it => decide (it.1 = last)) + 1)).map
              Prod.fst)))).isSome = true := by
        rw [List.find?_isSome]
        exact ⟨bad, hbadex, by simp [hbadold, hbadold2]⟩
      obtain ⟨c, hc⟩ := Option.isSome_iff_exists.mp hsome
      refine ⟨c, ?_⟩
      have hens : ensureMigrationsAreNotCorrupted (ε := ε) (sortNames s.ledger)
          (((sortedMigrationsOf migs).take
            ((sortedMigrationsOf migs).findIdx (fun it => decide (it.1 = last)) + 1)).map
              Prod.fst) = some (.corruptedMissing c) := by
        unfold ensureMigrationsAreNotCorrupted
        rw [hc]
      simp only [runNewMigrations, hl, if_neg hidx, hens]

/-- **C4** (amended): for every migration set with distinct names and every
non-empty ledger *all of whose entries are present in the set*, if the set
contains an unexecuted migration whose name sorts before the last executed
name, `runNewMigrations` fails with the distinct corrupted-history error
stating that a new migration comes alphabetically before the last executed
migration, and applies nothing: no forward operation is invoked and the
state is returned unchanged. -/
theorem runNewMigrations_comesBefore_fails [DecidableEq ν]
    (migs : List (ν × Migration σ ε)) (s : DbState ν σ) (n last : ν)
    (hkeys : (migs.map Prod.fst).Nodup)
    (hexec : ∀ b ∈ s.ledger, b ∈ migs.map Prod.fst)
    (hlast : (sortNames s.ledger).getLast? = some last)
    (hn : n ∈ migs.map Prod.fst) (hnx : n ∉ s.ledger) (hlt : n < last) :
    ∃ c, runNewMigrations migs s =
      ([], Except.error (.comesBefore c, s)) := by
  have hnodup : (sortNames (migs.map Prod.fst)).Nodup := sortNames_nodup hkeys
  have hsortedM : (sortedMigrationsOf migs).map Prod.fst =
      sortNames (migs.map Prod.fst) := sortedMigrationsOf_map_fst migs
  have hlastled : last ∈ s.ledger := by
    rcases List.mem_getLast?_eq_getLast (Option.mem_def.mpr hlast) with ⟨hne, hbe⟩
    exact sortNames_mem.mp (hbe ▸ List.getLast_mem hne)
  have hlastsorted : last ∈ sortNames (migs.map Prod.fst) :=
    sortNames_mem.mpr (hexec last hlastled)
  rcases List.mem_iff_getElem.mp hlastsorted with ⟨i, hilen, hgeti⟩
  have hfind : (sortedMigrationsOf migs).findIdx
      (fun it => decide (it.1 = last)) = i := by
    rw [findIdx_fst_eq, hsortedM]
    exact findIdx_of_nodup hnodup hilen hgeti
  have hidxne : ¬((sortedMigrationsOf migs).findIdx
      (fun it => decide (it.1 = last)) = (sortedMigrationsOf migs).length) := by
    rw [hfind]
    have : (sortedMigrationsOf migs).length =
        (sortNames (migs.map Prod.fst)).length := by
      rw [← hsortedM, List.length_map]
    omega
  have holdmap : ((sortedMigrationsOf migs).take
      ((sortedMigrationsOf migs).findIdx (fun it => decide (it.1 = last)) + 1)).map
        Prod.fst = (sortNames (migs.map Prod.fst)).take (i + 1) := by
    rw [List.map_take, hsortedM, hfind]
  have hgetlast : (sortNames (migs.map Prod.fst)).get ⟨i, hilen⟩ = last := by
    rw [List.get_eq_getElem]
    exact hgeti
  have hfirst : ((sortNames s.ledger).find? (fun it => !(decide (it ∈
      ((sortedMigrationsOf migs).take
        ((sortedMigrationsOf migs).findIdx (fun it => decide (it.1 = last)) + 1)).map
          Prod.fst)))) = none := by
    rw [List.find?_eq_none]
    intro x hx
    have hxled : x ∈ s.ledger := sortNames_mem.mp hx
    have hxsorted : x ∈ sortNames (migs.map Prod.fst) :=
      sortNames_mem.mpr (hexec x hxled)
    have hxle : x ≤ last :=
      sorted_le_getLast (sortNames_sorted s.ledger) hlast x hx
    have hxold : x ∈ (sortNames (migs.map Prod.fst)).take (i + 1) :=
      mem_take_of_le (sortNames_strict hkeys) hilen hxsorted (hgetlast ▸ hxle)
    rw [holdmap]
    simp [hxold]
  have hnold : n ∈ ((sortedMigrationsOf migs).take
      ((sortedMigrationsOf migs).findIdx (fun it => decide (it.1 = last)) + 1)).map
        Prod.fst := by
    rw [holdmap]
    exact mem_take_of_le (sortNames_strict hkeys) hilen
      (sortNames_mem.mpr hn) (hgetlast ▸ le_of_lt hlt)
  have hsome : (((((sortedMigrationsOf migs).take
      ((sortedMigrationsOf migs).findIdx (fun it => decide (it.1 = last)) + 1)).map
        Prod.fst)).find? (fun it => !(decide (it ∈ sortNames s.ledger)))).isSome
      = true := by
    rw [List.find?_isSome]
    refine ⟨n, hnold, ?_⟩
    have hns : n ∉ sortNames s.ledger := fun h => hnx (sortNames_mem.mp h)
    simp [hns]
  obtain ⟨c, hc⟩ := Option.isSome_iff_exists.mp hsome
  refine ⟨c, ?_⟩
  have hens : ensureMigrationsAreNotCorrupted (ε := ε) (sortNames s.ledger)
      (((sortedMigrationsOf migs).take
        ((sortedMigrationsOf migs).findIdx (fun it => decide (it.1 = last)) + 1)).map
          Prod.fst) = some (.comesBefore c) := by
    unfold ensureMigrationsAreNotCorrupted
    rw [hfirst, hc]
  simp only [runNewMigrations, hlast, if_neg hidxne, hens]

/-- **C4** (counterexample to the claim as stated): the set `{"a"}` with
ledger `["b"]` has a non-empty ledger and an unexecuted migration `"a"`
sorting strictly before the last executed name `"b"`, yet `runNewMigrations`
fails with the *missing previously-executed migration* corruption error, not
the comes-alphabetically-before one, because the last executed name is itself
absent from the set and that check fires first. -/
theorem comesBefore_claim_counterexample :
    ("a" ∈ ([("a", unitMig)] : List (String × Migration Unit Unit)).map Prod.fst) ∧
    ("b" ∈ (⟨["b"], false, false, ()⟩ : DbState String Unit).ledger) ∧
    ("a" : String) ∉ (⟨["b"], false, false, ()⟩ : DbState String Unit).ledger ∧
    ("a" : String) < "b" ∧
    (sortNames ((⟨["b"], false, false, ()⟩ : DbState String Unit)).ledger).getLast?
      = some "b" ∧
    runNewMigrations [("a", unitMig)]
        (⟨["b"], false, false, ()⟩ : DbState String Unit) =
      ([], Except.error (.corruptedMissing "b",
        (⟨["b"], false, false, ()⟩ : DbState String Unit))) := by
  refine ⟨?_, ?_, ?_, ?_, ?_, ?_⟩
  · decide
  · decide
  · decide
  · rw [String.lt_iff_toList_lt]
    decide
  · rfl
  · rfl

end Corruption

end Kysely

namespace Kysely

section LockRetry

theorem acquireLockRun_some_iff (env : Nat → List LockRow) :
    ∀ fuel a s0 k t : Nat,
      acquireLockRun env fuel a s0 = some (k, t) ↔
        a ≤ k ∧ k < a + fuel ∧ tryAcquireLockSucceeds (env k) = true ∧
        (∀ j, a ≤ j → j < k → tryAcquireLockSucceeds (env j) = false) ∧
        t = s0 + 100 * (k - a) := by
  intro fuel
  induction fuel with
  | zero =>
    intro a s0 k t
    simp only [acquireLockRun]
    constructor
    · intro h
      exact absurd h (by simp)
    · rintro ⟨h1, h2, _⟩
      omega
  | succ fuel ih =>
    intro a s0 k t
    by_cases hs : tryAcquireLockSucceeds (env a) = true
    · rw [acquireLockRun, if_pos hs]
      constructor
      · intro h
        rw [Option.some.injEq, Prod.mk.injEq] at h
        obtain ⟨rfl, rfl⟩ := h
        exact ⟨le_refl _, by omega, hs, by omega, by omega⟩
      · rintro ⟨h1, h2, h3, h4, h5⟩
        have hka : k = a := by
          by_contra hne
          have hak : a < k := by omega
          have := h4 a (le_refl a) hak
          rw [hs] at this
          exact absurd this (by simp)
        subst hka
        rw [Option.some.injEq, Prod.mk.injEq]
        omega
    · have hsf : tryAcquireLockSucceeds (env a) = false := by
        cases hcase : tryAcquireLockSucceeds (env a)
        · rfl
        · exact absurd hcase hs
      rw [acquireLockRun, if_neg hs, ih (a + 1) (s0 + 100) k t]
      constructor
      · rintro ⟨h1, h2, h3, h4, h5⟩
        refine ⟨by omega, by omega, h3, ?_, by omega⟩
        intro j hj1 hj2
        rcases Nat.eq_or_lt_of_le hj1 with rfl | hlt
        · exact hsf
        · exact h4 j (by omega) hj2
      · rintro ⟨h1, h2, h3, h4, h5⟩
        have hka : a < k := by
          rcases Nat.eq_or_lt_of_le h1 with rfl | h
          · rw [hsf] at h3
            exact absurd h3 (by simp)
          · exact h
        exact ⟨by omega, by omega, h3, fun j hj1 hj2 => h4 j (by omega) hj2, by omega⟩

theorem acquireLockRun_none (env : Nat → List LockRow)
    (hnever : ∀ j, tryAcquireLockSucceeds (env j) = false) :
    ∀ fuel a s0, acquireLockRun env fuel a s0 = none := by
  intro fuel
  induction fuel with
  | zero =>
    intro a s0
    rfl
  | succ fuel ih =>
    intro a s0
    rw [acquireLockRun, if_neg (by rw [hnever a]; simp)]
    exact ih _ _

/-- **C6**: `acquireLock` repeatedly attempts the conditional update setting
`is_locked = 1` where `is_locked = 0` and `id` equals the fixed lock id; one
attempt succeeds exactly when that update affects exactly one row; the loop
(unrolled to any depth `fuel`) returns at attempt `k` having slept a fixed
100 time-units per failed attempt exactly when attempt `k` is the first
successful one within the unrolling; and when no attempt ever succeeds the
loop never returns at any unrolling depth — there is no retry bound. -/
theorem acquireLock_retry_behaviour (env : Nat → List LockRow)
    (fuel k t : Nat) :
    (∀ table : List LockRow, tryAcquireLockSucceeds table = true ↔
      (table.filter lockRowMatches).length = 1) ∧
    (acquireLockRun env fuel 0 0 = some (k, t) ↔
      k < fuel ∧ tryAcquireLockSucceeds (env k) = true ∧
        (∀ j, j < k → tryAcquireLockSucceeds (env j) = false) ∧ t = 100 * k) ∧
    ((∀ j, tryAcquireLockSucceeds (env j) = false) →
      acquireLockRun env fuel 0 0 = none) := by
  refine ⟨?_, ?_, ?_⟩
  · intro table
    unfold tryAcquireLockSucceeds tryAcquireLockRows
    simp
  · rw [acquireLockRun_some_iff env fuel 0 0 k t]
    constructor
    · rintro ⟨_, h2, h3, h4, h5⟩
      exact ⟨by omega, h3, fun j hj => h4 j (Nat.zero_le j) hj, by omega⟩
    · rintro ⟨h1, h2, h3, h4⟩
      exact ⟨Nat.zero_le k, by omega, h2, fun j _ hj => h3 j hj, by omega⟩
  · intro hnever
    exact acquireLockRun_none env hnever fuel 0 0

end LockRetry

section Bootstrap

/-- **C7**: each of the three bootstrap steps — create the migration table,
create the lock table, insert the single lock row — first checks existence
and does nothing when the object exists; when the creation call fails the
step re-checks existence and treats an existing object as success, and
propagates the original failure exactly when the object still does not
exist. -/
theorem bootstrap_steps_race_tolerant (ε : Type) :
    ensureStepSpec (ensureMigrationTableExistsStep (ε := ε)) ∧
    ensureStepSpec (ensureMigrationLockTableExistsStep (ε := ε)) ∧
    ensureStepSpec (ensureLockRowExistsStep (ε := ε)) := by
  have h : ensureStepSpec (ensureObjectStep (ε := ε)) := by
    intro env
    obtain ⟨ec, cr, er⟩ := env
    cases ec <;> cases cr <;> cases er <;>
      simp [ensureObjectStep, ensureStepSpec]
  exact ⟨h, h, h⟩

end Bootstrap

end Kysely

namespace Kysely

section Loader

variable {σ ε : Type}

theorem lookupName_setKey (migs : List (String × Migration σ ε))
    (k n : String) (v : Migration σ ε) :
    lookupName n (setKey migs k v) =
      if n = k then some v else lookupName n migs := by
  induction migs with
  | nil => rfl
  | cons p rest ih =>
    obtain ⟨k2, v2⟩ := p
    by_cases hk : k = k2
    · subst hk
      rw [setKey, if_pos rfl]
      by_cases hn : n = k
      · rw [lookupName, if_pos hn, if_pos hn]
      · rw [lookupName, if_neg hn, if_neg hn, lookupName, if_neg hn]
    · rw [setKey, if_neg hk]
      by_cases hn : n = k2
      · have hnk : ¬(n = k) := fun h => hk (h.symm.trans hn)
        rw [lookupName, if_pos hn, if_neg hnk, lookupName, if_pos hn]
      · rw [lookupName, if_neg hn, ih, lookupName, if_neg hn]

theorem lastEligible_cons_none {f : String × Option (JsModule σ ε)}
    (hel : eligibleEntry f = none) (n : String)
    (rest : List (String × Option (JsModule σ ε))) :
    lastEligible n (f :: rest) = lastEligible n rest := by
  unfold lastEligible
  rw [List.filterMap_cons_none hel]

theorem lastEligible_cons_some {f : String × Option (JsModule σ ε)} {nm : String}
    {v : Migration σ ε} (hel : eligibleEntry f = some (nm, v)) (n : String)
    (rest : List (String × Option (JsModule σ ε))) :
    lastEligible n (f :: rest) =
      if nm = n then some ((lastEligible n rest).getD v)
      else lastEligible n rest := by
  unfold lastEligible
  rw [List.filterMap_cons_some hel, List.filter_cons]
  by_cases hnm : nm = n
  · rw [if_pos (by simp [hnm]), if_pos hnm]
    cases hgl : (List.filter (fun q => decide (q.1 = n))
        (List.filterMap eligibleEntry rest)).getLast? with
    | none =>
      rw [List.getLast?_cons, hgl]
      simp
    | some q =>
      rw [List.getLast?_cons, hgl]
      simp
  · rw [if_neg (by simp [hnm]), if_neg hnm]

theorem readFolderLoop_lookup (n : String) :
    ∀ (files : List (String × Option (JsModule σ ε)))
      (acc : List (String × Migration σ ε)),
      lookupName n (readFolderLoop files acc) =
        (lastEligible n files).or (lookupName n acc) := by
  intro files
  induction files with
  | nil =>
    intro acc
    have hnil : lastEligible (σ := σ) (ε := ε) n [] = none := rfl
    simp only [readFolderLoop]
    rw [hnil, Option.none_or]
  | cons f rest ih =>
    intro acc
    obtain ⟨file, mod⟩ := f
    by_cases hfile : isMigrationFile file = true
    · cases mod with
      | none =>
        have hel : eligibleEntry ((file, none) : String × Option (JsModule σ ε))
            = none := by
          simp [eligibleEntry, hfile]
        simp only [readFolderLoop, if_pos hfile]
        rw [ih acc, lastEligible_cons_none hel]
      | some m =>
        cases hup : m.up with
        | none =>
          have hel : eligibleEntry (file, some m) = none := by
            simp [eligibleEntry, hfile, hup]
          simp only [readFolderLoop, if_pos hfile, hup]
          rw [ih acc, lastEligible_cons_none hel]
        | some u =>
          cases hdn : m.down with
          | none =>
            have hel : eligibleEntry (file, some m) = none := by
              simp [eligibleEntry, hfile, hup, hdn]
            simp only [readFolderLoop, if_pos hfile, hup, hdn]
            rw [ih acc, lastEligible_cons_none hel]
          | some d =>
            have hel : eligibleEntry (file, some m) =
                some (file.take (file.length - 3), ⟨u, d⟩) := by
              simp [eligibleEntry, hfile, hup, hdn]
            simp only [readFolderLoop, if_pos hfile, hup, hdn]
            rw [ih (setKey acc (file.take (file.length - 3)) ⟨u, d⟩),
              lookupName_setKey, lastEligible_cons_some hel]
            by_cases hnm : file.take (file.length - 3) = n
            · rw [if_pos hnm, if_pos (hnm.symm)]
              cases hle : lastEligible n rest with
              | none => simp [hle]
              | some w => simp [hle]
            · rw [if_neg hnm, if_neg (fun h => hnm h.symm)]
    · have hel : eligibleEntry ((file, mod) : String × Option (JsModule σ ε))
          = none := by
        simp [eligibleEntry, hfile]
      simp only [readFolderLoop, if_neg hfile]
      rw [ih acc, lastEligible_cons_none hel]

/-- **C10**: a directory entry contributes a migration to the folder read
exactly when its file name passes the suffix filter (`.js` or `.ts` but not
`.d.ts`) and its imported module has both `up` and `down` functions — all
other entries are silently skipped — and the contributed name is the file
name with its last three characters removed; the record binds each name to
the migration of the *last* eligible entry deriving it, so `x.js` and `x.ts`
derive the same name `x` and the later-read module silently replaces the
earlier one. -/
theorem readMigrationsFromFolder_behaviour (σ ε : Type) :
    (∀ (files : List (String × Option (JsModule σ ε))) (n : String),
      lookupName n (readMigrationsFromFolder files) = lastEligible n files) ∧
    (∀ p : String × Option (JsModule σ ε),
      (eligibleEntry p).map Prod.fst =
        if (isMigrationFile p.1 && isMigrationModule p.2) = true
        then some (p.1.take (p.1.length - 3)) else none) ∧
    (∀ u1 d1 u2 d2 : σ → Except ε σ,
      readMigrationsFromFolder
        [("x.js", some ⟨some u1, some d1⟩), ("x.ts", some ⟨some u2, some d2⟩)] =
      [("x", ⟨u2, d2⟩)]) := by
  refine ⟨?_, ?_, ?_⟩
  · intro files n
    rw [readMigrationsFromFolder]
    rw [readFolderLoop_lookup]
    have hnil : lookupName (σ := σ) (ε := ε) n [] = none := rfl
    rw [hnil, Option.or_none]
  · intro p
    obtain ⟨file, mod⟩ := p
    by_cases hfile : isMigrationFile file = true
    · cases mod with
      | none => simp [eligibleEntry, isMigrationModule, hfile]
      | some m =>
        cases hup : m.up <;> cases hdn : m.down <;>
          simp [eligibleEntry, isMigrationModule, hfile, hup, hdn]
    · have hff : isMigrationFile file = false := by
        cases h : isMigrationFile file
        · rfl
        · exact absurd h hfile
      simp [eligibleEntry, isMigrationModule, hff]
  · intro u1 d1 u2 d2
    rfl

end Loader

end Kysely

namespace Kysely

/-- Witness for the C1 theorem at the set `{1 ↦ demoMig, 2 ↦ demoMig}` with
ledger `[1]`. -/
theorem runNewMigrations_applies_exactly_pending_witness :
    ∃ s2,
      runNewMigrations [(2, demoMig), (1, demoMig)]
          (⟨[1], false, false, 0⟩ : DbState Nat Nat) =
        (pendingNamesOf ([(2, demoMig), (1, demoMig)].map Prod.fst) [1],
          Except.ok s2) ∧
      s2.ledger = [1] ++ pendingNamesOf ([(2, demoMig), (1, demoMig)].map Prod.fst) [1] ∧
      (pendingNamesOf ([(2, demoMig), (1, demoMig)].map Prod.fst) [1]).Pairwise (· < ·) ∧
      (match (sortNames [1]).getLast? with
       | none => pendingNamesOf ([(2, demoMig), (1, demoMig)].map Prod.fst) [1] =
           sortNames ([(2, demoMig), (1, demoMig)].map Prod.fst)
       | some last => pendingNamesOf ([(2, demoMig), (1, demoMig)].map Prod.fst) [1] =
           (sortNames ([(2, demoMig), (1, demoMig)].map Prod.fst)).filter
             (fun n => decide (last < n))) :=
  runNewMigrations_applies_exactly_pending
    [(2, demoMig), (1, demoMig)] ⟨[1], false, false, 0⟩ (by decide) rfl
    (by
      intro p hp sch
      rcases List.mem_cons.mp hp with rfl | hp2
      · exact ⟨sch + 1, rfl⟩
      · rcases List.mem_cons.mp hp2 with rfl | hp3
        · exact ⟨sch + 1, rfl⟩
        · exact absurd hp3 (List.not_mem_nil p))

/-- Witness for the C2 theorem: `demoMig` then `failMig`; the run fails with
error `7` and rolls back to the bootstrapped-only state. -/
theorem doMigrateToLatest_rolls_back_witness :
    doMigrateToLatest [(1, demoMig), (2, failMig)]
        (⟨[], false, false, 0⟩ : DbState Nat Nat) =
      some ([1, 2], Except.error (.opError 7),
        (⟨[], false, true, 0⟩ : DbState Nat Nat)) ∧
    (⟨[], false, true, 0⟩ : DbState Nat Nat).ledger = [] :=
  doMigrateToLatest_rolls_back_on_op_failure
    [(1, demoMig), (2, failMig)] ⟨[], false, false, 0⟩
    [(1, demoMig)] [] 2 failMig 7 (by decide) rfl rfl rfl
    (by
      intro p hp sch
      rcases List.mem_cons.mp hp with rfl | hp2
      · exact ⟨sch + 1, rfl⟩
      · exact absurd hp2 (List.not_mem_nil p))
    (fun _ => rfl)

/-- Witness for the C3 theorem: ledger `[2]`, set `{1}` — the previously
executed `2` is missing from the set. -/
theorem runNewMigrations_missing_executed_fails_witness :
    ∃ c, runNewMigrations [(1, demoMig)] (⟨[2], false, false, 0⟩ : DbState Nat Nat) =
      ([], Except.error (.corruptedMissing c, ⟨[2], false, false, 0⟩)) :=
  runNewMigrations_missing_executed_fails [(1, demoMig)]
    ⟨[2], false, false, 0⟩ 2 (by decide) (by decide)

/-- Witness for the amended C4 theorem: ledger `[3]` (all entries in the
set), unexecuted `1` sorting before the last executed `3`. -/
theorem runNewMigrations_comesBefore_fails_witness :
    ∃ c, runNewMigrations [(1, demoMig), (3, demoMig)]
        (⟨[3], false, false, 0⟩ : DbState Nat Nat) =
      ([], Except.error (.comesBefore c, ⟨[3], false, false, 0⟩)) :=
  runNewMigrations_comesBefore_fails [(1, demoMig), (3, demoMig)]
    ⟨[3], false, false, 0⟩ 1 3 (by decide) (by decide) rfl (by decide)
    (by decide) (by decide)

/-- Witness for the C5 theorem: applying the single pending migration from an
empty ledger yields a ledger that is the full sorted name sequence. -/
theorem runNewMigrations_preserves_I1_witness :
    I1 ([(1, demoMig)].map Prod.fst)
        ((⟨[1], false, false, 1⟩ : DbState Nat Nat)).ledger ∧
    (pendingNamesOf ([(1, demoMig)].map Prod.fst)
        ((⟨[], false, false, 0⟩ : DbState Nat Nat)).ledger ≠ [] →
      sortNames ((⟨[1], false, false, 1⟩ : DbState Nat Nat)).ledger =
        sortNames ([(1, demoMig)].map Prod.fst)) :=
  runNewMigrations_preserves_I1 [(1, demoMig)] ⟨[], false, false, 0⟩
    [1] ⟨[1], false, false, 1⟩ (by decide) rfl (by rfl)

/-- Witness for the C6 theorem: with the demo environment the loop fails
twice, sleeps 100 each time, and succeeds at attempt 2; with an environment
that never has the unlocked row it never returns. -/
theorem acquireLock_retry_behaviour_witness :
    acquireLockRun demoLockEnv 5 0 0 = some (2, 200) ∧
    acquireLockRun (fun _ => ([] : List LockRow)) 5 0 0 = none := by
  constructor
  · exact ((acquireLock_retry_behaviour demoLockEnv 5 2 200).2.1).mpr
      ⟨by decide, by decide, by decide, by decide⟩
  · exact (acquireLock_retry_behaviour (fun _ => ([] : List LockRow)) 5 0 0).2.2
      (fun _ => rfl)

/-- Witness for the C8 theorem at the set `{1}` with empty ledger. -/
theorem runNewMigrations_duplicate_branch_unreachable_witness :
    (pendingNamesOf ([(1, demoMig)].map Prod.fst)
        ((⟨[], false, false, 0⟩ : DbState Nat Nat)).ledger).Nodup ∧
    (∀ n ∈ pendingNamesOf ([(1, demoMig)].map Prod.fst)
        ((⟨[], false, false, 0⟩ : DbState Nat Nat)).ledger,
      ∀ b ∈ ((⟨[], false, false, 0⟩ : DbState Nat Nat)).ledger, b < n) ∧
    dupFree (runNewMigrations [(1, demoMig)]
        (⟨[], false, false, 0⟩ : DbState Nat Nat)).2 = true :=
  runNewMigrations_duplicate_branch_unreachable [(1, demoMig)]
    ⟨[], false, false, 0⟩ (by decide) rfl

/-- Witness for the C9 theorem at the set `{1}` with empty ledger. -/
theorem serialized_runs_apply_once_witness :
    ∃ tr1 tr2 s1 s2,
      doMigrateToLatest [(1, demoMig)]
          (⟨[], false, false, 0⟩ : DbState Nat Nat) =
        some (tr1, Except.ok (), s1) ∧
      doMigrateToLatest [(1, demoMig)] s1 = some (tr2, Except.ok (), s2) ∧
      tr1 ++ tr2 = pendingNamesOf ([(1, demoMig)].map Prod.fst)
        ((⟨[], false, false, 0⟩ : DbState Nat Nat)).ledger ∧
      ∀ n ∈ pendingNamesOf ([(1, demoMig)].map Prod.fst)
          ((⟨[], false, false, 0⟩ : DbState Nat Nat)).ledger,
        (tr1 ++ tr2).count n = 1 :=
  serialized_runs_apply_each_pending_once [(1, demoMig)]
    ⟨[], false, false, 0⟩ (by decide) rfl rfl
    (by
      intro p hp sch
      rcases List.mem_cons.mp hp with rfl | hp2
      · exact ⟨sch + 1, rfl⟩
      · exact absurd hp2 (List.not_mem_nil p))

end Kysely
